import Mathlib

/-!
Verification of the persistent singly linked list from `ch9-linked-list.rs`:
the generic `List<T>` enum (variants `Cons(T, Box<List<T>>)` and `Nil`), the
`prepend` constructor, the standalone recursive `eq` comparison with a match
guard on `x == y`, the derived `Clone` (deep copy of the spine), and the
`PartialEq` trait implementation.  Machine-level `Box` pointers are modelled
explicitly (with addresses) only where spine sharing is the property at stake.
-/

namespace Ch9

/-- The generic linked list from the source:
`enum List<T> { Cons(T, Box<List<T>>), Nil }`. -/
inductive List (T : Type) : Type where
  | Nil : List T
  | Cons : T → List T → List T
deriving DecidableEq

open List

/-- `fn prepend<T>(xs: List<T>, value: T) -> List<T> { Cons(value, box xs) }` -/
def prepend {T : Type} (xs : List T) (value : T) : List T :=
  Cons value xs

/-- The standalone `fn eq<T: PartialEq>(xs: &List<T>, ys: &List<T>) -> bool`:
matches on both lists; `(Nil, Nil)` gives true, `(Cons, Cons)` recurses when
the guard `x == y` holds, every other case (including a failed guard) falls
through to `_ => false`. -/
def eq {T : Type} [BEq T] : List T → List T → Bool
  | Nil, Nil => true
  | Cons x next_xs, Cons y next_ys =>
      if x == y then eq next_xs next_ys else false
  | _, _ => false

/-- The derived `Clone` on the list (`#[deriving(Clone)]`): a deep, recursive
copy of the spine, cloning each element (element clone is the value itself
for `Copy` payloads such as `u32`). -/
def clone {T : Type} : List T → List T
  | Nil => Nil
  | Cons x xs => Cons x (clone xs)

/-- The `eq` method of `impl<T: PartialEq> PartialEq for List<T>`: the same
match as the standalone `eq`, recursing through `next_xs == next_ys`, which
dispatches back to this method. -/
def eqMethod {T : Type} [BEq T] : List T → List T → Bool
  | Nil, Nil => true
  | Cons x next_xs, Cons y next_ys =>
      if x == y then eqMethod next_xs next_ys else false
  | _, _ => false

/-- Number of nodes in the spine. -/
def size {T : Type} : List T → Nat
  | Nil => 0
  | Cons _ xs => size xs + 1

/-- Step-counting version of `eq`: each recursive call consumes one unit of
fuel, and `none` means the budget ran out.  Used to state that the source
recursion terminates. -/
def eqFuel {T : Type} [BEq T] : Nat → List T → List T → Option Bool
  | 0, _, _ => none
  | _ + 1, Nil, Nil => some true
  | n + 1, Cons x next_xs, Cons y next_ys =>
      if x == y then eqFuel n next_xs next_ys else some false
  | _ + 1, _, _ => some false

/-- Step-counting version of `clone`. -/
def cloneFuel {T : Type} : Nat → List T → Option (List T)
  | 0, _ => none
  | _ + 1, Nil => some Nil
  | n + 1, Cons x xs => Option.map (Cons x) (cloneFuel n xs)

end Ch9

/-- The logical sequence a list denotes, head first. -/
def toSeq {T : Type} : Ch9.List T → List T
  | Ch9.List.Nil => []
  | Ch9.List.Cons x xs => x :: toSeq xs

/-- A spine with the machine representation made explicit: each `Cons` node
records the address of the `Box` holding its tail.  This models the heap
layout that the shallow `Ch9.List` erases. -/
inductive RList (T : Type) : Type where
  | rnil : RList T
  | rcons : T → Nat → RList T → RList T
deriving DecidableEq

/-- Addresses of the backing boxes of a spine. -/
def addrsOf {T : Type} : RList T → List Nat
  | RList.rnil => []
  | RList.rcons _ a rest => a :: addrsOf rest

/-- The derived `Clone` at the machine level: cloning a `Box` allocates a
fresh box and recursively clones its contents.  `n` is the allocator's next
fresh address; every address handed out is `≥ n` and the updated allocator
state is returned. -/
def cloneAlloc {T : Type} : RList T → Nat → RList T × Nat
  | RList.rnil, n => (RList.rnil, n)
  | RList.rcons v _ rest, n =>
      let p := cloneAlloc rest (n + 1)
      (RList.rcons v n p.fst, p.snd)

/-- Forget the addresses, recovering the pure list value. -/
def eraseR {T : Type} : RList T → Ch9.List T
  | RList.rnil => Ch9.List.Nil
  | RList.rcons v _ rest => Ch9.List.Cons v (eraseR rest)

/-- Every address allocated by `cloneAlloc r n` is at least `n`. -/
theorem cloneAlloc_addr_ge {T : Type} :
    ∀ (r : RList T) (n a : Nat), a ∈ addrsOf (cloneAlloc r n).fst → n ≤ a := by
  intro r
  induction r with
  | rnil => intro n a ha; simp [cloneAlloc, addrsOf] at ha
  | rcons v b rest ih =>
      intro n a ha
      simp only [cloneAlloc, addrsOf, List.mem_cons] at ha
      rcases ha with h | h
      · omega
      · have := ih (n + 1) a h
        omega

/-- `cloneAlloc` preserves the list's contents. -/
theorem eraseR_cloneAlloc {T : Type} :
    ∀ (r : RList T) (n : Nat), eraseR (cloneAlloc r n).fst = eraseR r := by
  intro r
  induction r with
  | rnil => intro n; simp [cloneAlloc, eraseR]
  | rcons v b rest ih => intro n; simp [cloneAlloc, eraseR, ih]

/-- `clone` is the identity on the pure value of the spine. -/
theorem ch9_clone_id {T : Type} : ∀ L : Ch9.List T, Ch9.clone L = L := by
  intro L
  induction L with
  | Nil => simp [Ch9.clone]
  | Cons x xs ih => simp [Ch9.clone, ih]

/-- `eq` is reflexive when `==` is lawful. -/
theorem ch9_eq_self {T : Type} [BEq T] [LawfulBEq T] :
    ∀ L : Ch9.List T, Ch9.eq L L = true := by
  intro L
  induction L with
  | Nil => simp [Ch9.eq]
  | Cons x xs ih => simp [Ch9.eq, ih]

/-- Claim C1: `eq` follows the structural recursion of the source: Nil vs
Nil is true; Cons vs Cons is true iff the heads compare equal and the tails
are `eq`; Nil against Cons, in either order, is false. -/
theorem ch9_eq_structural {T : Type} [BEq T] (x y : T) (xs ys : Ch9.List T) :
    Ch9.eq (Ch9.List.Nil : Ch9.List T) Ch9.List.Nil = true ∧
    (Ch9.eq (Ch9.List.Cons x xs) (Ch9.List.Cons y ys) = true ↔
      (x == y) = true ∧ Ch9.eq xs ys = true) ∧
    Ch9.eq Ch9.List.Nil (Ch9.List.Cons y ys) = false ∧
    Ch9.eq (Ch9.List.Cons x xs) Ch9.List.Nil = false := by
  refine ⟨by simp [Ch9.eq], ?_, by simp [Ch9.eq], by simp [Ch9.eq]⟩
  cases h : x == y <;> simp [Ch9.eq, h]

/-- Claim C2: for every list `L`, comparing `L` with its deep copy
`clone L` with `eq` yields true. -/
theorem ch9_eq_clone_refl {T : Type} [BEq T] [LawfulBEq T] (L : Ch9.List T) :
    Ch9.eq L (Ch9.clone L) = true := by
  rw [ch9_clone_id]
  exact ch9_eq_self L

/-- Witness for C2 at a concrete list of naturals. -/
theorem ch9_eq_clone_refl_witness :
    Ch9.eq (Ch9.List.Cons 1 (Ch9.List.Cons 2 (Ch9.List.Cons 3 Ch9.List.Nil)))
      (Ch9.clone (Ch9.List.Cons 1 (Ch9.List.Cons 2 (Ch9.List.Cons 3 Ch9.List.Nil)))) = true :=
  ch9_eq_clone_refl (T := Nat)
    (Ch9.List.Cons 1 (Ch9.List.Cons 2 (Ch9.List.Cons 3 Ch9.List.Nil)))

/-- Claim C3: `prepend xs v` is exactly the node `Cons v xs` — head `v`,
tail the original spine `xs`, never `Nil`. -/
theorem ch9_prepend_spec {T : Type} (xs : Ch9.List T) (v : T) :
    Ch9.prepend xs v = Ch9.List.Cons v xs ∧
    Ch9.prepend xs v ≠ Ch9.List.Nil := by
  refine ⟨rfl, ?_⟩
  simp [Ch9.prepend]

/-- With fuel exceeding the first list's size, `eqFuel` returns a value. -/
theorem eqFuel_sufficient {T : Type} [BEq T] :
    ∀ (a : Ch9.List T) (b : Ch9.List T) (n : Nat), Ch9.size a < n →
      Ch9.eqFuel n a b = some (Ch9.eq a b) := by
  intro a
  induction a with
  | Nil =>
      intro b n hn
      cases n with
      | zero => omega
      | succ m => cases b <;> simp [Ch9.eqFuel, Ch9.eq]
  | Cons x xs ih =>
      intro b n hn
      cases n with
      | zero => omega
      | succ m =>
          cases b with
          | Nil => simp [Ch9.eqFuel, Ch9.eq]
          | Cons y ys =>
              cases h : x == y <;>
                simp [Ch9.eqFuel, Ch9.eq, h, ih ys m (by simp [Ch9.size] at hn; omega)]

/-- With fuel exceeding the list's size, `cloneFuel` returns a value. -/
theorem cloneFuel_sufficient {T : Type} :
    ∀ (a : Ch9.List T) (n : Nat), Ch9.size a < n →
      Ch9.cloneFuel n a = some (Ch9.clone a) := by
  intro a
  induction a with
  | Nil =>
      intro n hn
      cases n with
      | zero => omega
      | succ m => simp [Ch9.cloneFuel, Ch9.clone]
  | Cons x xs ih =>
      intro n hn
      cases n with
      | zero => omega
      | succ m =>
          simp [Ch9.cloneFuel, Ch9.clone, ih m (by simp [Ch9.size] at hn; omega)]

/-- Claim C4: `eq` and `clone` are total on every finite list — the source
recursion, run with a step budget of one more than the spine length, always
finishes with a value, and that value is the one the total functions give. -/
theorem ch9_eq_clone_total {T : Type} [BEq T] (a b : Ch9.List T) :
    Ch9.eqFuel (Ch9.size a + 1) a b = some (Ch9.eq a b) ∧
    Ch9.cloneFuel (Ch9.size a + 1) a = some (Ch9.clone a) :=
  ⟨eqFuel_sufficient a b (Ch9.size a + 1) (by omega),
   cloneFuel_sufficient a (Ch9.size a + 1) (by omega)⟩

/-- Claim C5: prepending 3, 2, 1 onto empty yields the sequence [1, 2, 3];
a second list built by the same prepends is `eq`-equal; replacing the
prepended 3 by 4 in either list makes `eq` false. -/
theorem ch9_concrete_scenario :
    toSeq (Ch9.prepend (Ch9.prepend (Ch9.prepend (Ch9.List.Nil : Ch9.List Nat) 3) 2) 1)
      = [1, 2, 3] ∧
    Ch9.eq (Ch9.prepend (Ch9.prepend (Ch9.prepend (Ch9.List.Nil : Ch9.List Nat) 3) 2) 1)
      (Ch9.prepend (Ch9.prepend (Ch9.prepend Ch9.List.Nil 3) 2) 1) = true ∧
    Ch9.eq (Ch9.prepend (Ch9.prepend (Ch9.prepend (Ch9.List.Nil : Ch9.List Nat) 4) 2) 1)
      (Ch9.prepend (Ch9.prepend (Ch9.prepend Ch9.List.Nil 3) 2) 1) = false ∧
    Ch9.eq (Ch9.prepend (Ch9.prepend (Ch9.prepend (Ch9.List.Nil : Ch9.List Nat) 3) 2) 1)
      (Ch9.prepend (Ch9.prepend (Ch9.prepend Ch9.List.Nil 4) 2) 1) = false := by
  decide

/-- Claim C6: for distinct values the two-element lists built by prepending
`a` then `b`, and `b` then `a`, are not `eq`-equal. -/
theorem ch9_order_sensitivity {T : Type} [BEq T] [LawfulBEq T] (a b : T)
    (h : a ≠ b) :
    Ch9.eq (Ch9.prepend (Ch9.prepend Ch9.List.Nil a) b)
      (Ch9.prepend (Ch9.prepend Ch9.List.Nil b) a) = false := by
  have hb : (b == a) = false := beq_eq_false_iff_ne.mpr (Ne.symm h)
  simp [Ch9.prepend, Ch9.eq, hb]

/-- Witness for C6 at the distinct naturals 1 and 2. -/
theorem ch9_order_sensitivity_witness :
    (1 : Nat) ≠ 2 ∧
    Ch9.eq (Ch9.prepend (Ch9.prepend (Ch9.List.Nil : Ch9.List Nat) 1) 2)
      (Ch9.prepend (Ch9.prepend Ch9.List.Nil 2) 1) = false :=
  ⟨by decide, ch9_order_sensitivity 1 2 (by decide)⟩

/-- Claim C7: a 2-element list and a 3-element list agreeing on their first
two elements are never `eq`-equal, in either argument order. -/
theorem ch9_length_mismatch {T : Type} [BEq T] (a1 a2 b1 b2 b3 : T)
    (h1 : (a1 == b1) = true) (h2 : (a2 == b2) = true) :
    Ch9.eq (Ch9.List.Cons a1 (Ch9.List.Cons a2 Ch9.List.Nil))
      (Ch9.List.Cons b1 (Ch9.List.Cons b2 (Ch9.List.Cons b3 Ch9.List.Nil))) = false ∧
    Ch9.eq (Ch9.List.Cons b1 (Ch9.List.Cons b2 (Ch9.List.Cons b3 Ch9.List.Nil)))
      (Ch9.List.Cons a1 (Ch9.List.Cons a2 Ch9.List.Nil)) = false := by
  constructor
  · simp [Ch9.eq, h1, h2]
  · cases hb1 : b1 == a1 <;> cases hb2 : b2 == a2 <;> simp [Ch9.eq, hb1, hb2]

/-- Witness for C7 at concrete naturals. -/
theorem ch9_length_mismatch_witness :
    ((1 : Nat) == 1) = true ∧ ((2 : Nat) == 2) = true ∧
    Ch9.eq (Ch9.List.Cons 1 (Ch9.List.Cons 2 (Ch9.List.Nil : Ch9.List Nat)))
      (Ch9.List.Cons 1 (Ch9.List.Cons 2 (Ch9.List.Cons 7 Ch9.List.Nil))) = false ∧
    Ch9.eq (Ch9.List.Cons 1 (Ch9.List.Cons 2 (Ch9.List.Cons 7 (Ch9.List.Nil : Ch9.List Nat))))
      (Ch9.List.Cons 1 (Ch9.List.Cons 2 Ch9.List.Nil)) = false :=
  ⟨by decide, by decide,
   (ch9_length_mismatch 1 2 1 2 7 (by decide) (by decide)).1,
   (ch9_length_mismatch 1 2 1 2 7 (by decide) (by decide)).2⟩

/-- Claim C8: the empty list is never `eq`-equal to a one-element list, in
either argument order. -/
theorem ch9_empty_vs_singleton {T : Type} [BEq T] (v : T) :
    Ch9.eq (Ch9.List.Nil : Ch9.List T) (Ch9.prepend Ch9.List.Nil v) = false ∧
    Ch9.eq (Ch9.prepend Ch9.List.Nil v) Ch9.List.Nil = false := by
  constructor <;> simp [Ch9.prepend, Ch9.eq]

/-- Claim C9: the standalone `eq` and the `PartialEq` method compute the
same result on every pair of lists. -/
theorem ch9_eq_refines_method {T : Type} [BEq T] (a b : Ch9.List T) :
    Ch9.eq a b = Ch9.eqMethod a b := by
  induction a generalizing b with
  | Nil => cases b <;> simp [Ch9.eq, Ch9.eqMethod]
  | Cons x xs ih =>
      cases b with
      | Nil => simp [Ch9.eq, Ch9.eqMethod]
      | Cons y ys => cases h : x == y <;> simp [Ch9.eq, Ch9.eqMethod, h, ih]

/-- Claim C10: cloning a spine whose box addresses all lie below the
allocator's fresh mark produces a spine sharing no backing node with the
original, while preserving the list's contents. -/
theorem ch9_clone_no_sharing {T : Type} (r : RList T) (n : Nat)
    (h : ∀ a ∈ addrsOf r, a < n) :
    (∀ a ∈ addrsOf (cloneAlloc r n).fst, a ∉ addrsOf r) ∧
    eraseR (cloneAlloc r n).fst = eraseR r := by
  refine ⟨?_, eraseR_cloneAlloc r n⟩
  intro a ha hmem
  have hge := cloneAlloc_addr_ge r n a ha
  have hlt := h a hmem
  omega

/-- Witness for C10 at a concrete two-node spine with addresses 0 and 1 and
fresh mark 2. -/
theorem ch9_clone_no_sharing_witness :
    (∀ a ∈ addrsOf (RList.rcons 5 0 (RList.rcons 6 1 (RList.rnil : RList Nat))), a < 2) ∧
    (∀ a ∈ addrsOf
        (cloneAlloc (RList.rcons 5 0 (RList.rcons 6 1 (RList.rnil : RList Nat))) 2).fst,
      a ∉ addrsOf (RList.rcons 5 0 (RList.rcons 6 1 (RList.rnil : RList Nat)))) :=
  ⟨by decide,
   (ch9_clone_no_sharing (RList.rcons 5 0 (RList.rcons 6 1 (RList.rnil : RList Nat))) 2
      (by decide)).1⟩
